import Mathlib

/-!
Shallow embedding of `src/Ising.c`: a 2D Ising-model simulator.

The C program stores a lattice of `int8_t` spins in a flat buffer indexed by
`size_t`.  `size_t` arithmetic wraps modulo `2 ^ 64`, which is modelled with
explicit `% U` where the C code can wrap (coordinate reduction in `getIndex`,
`x + 1` / `x - 1` neighbour arithmetic in `calcEnergy`).  Spin values are
modelled as integers; `double` values (`weight_t`) are idealised as real
numbers, and the C library's `exp` as `Real.exp`.  The `rand()`-based
`uniformRandom` is modelled exactly over the rationals, parameterised by the
platform's `RAND_MAX`.  Mutation is modelled by state passing, and the
non-terminating thermalization loop by an explicit fuel parameter (returning
`none` when the fuel runs out before the loop's own exit condition fires).
-/

namespace Ising

/-- The size of the C `size_t` value space: `2 ^ 64`. -/
def U : ℕ := 2 ^ 64

/-- The `Lattice` struct: `width`, `height`, and the flat spin buffer `data`
(modelled as a total function from flat index to stored value). -/
structure Lattice where
  width : ℕ
  height : ℕ
  data : ℕ → ℤ

/-- Reduction of one coordinate in `getIndex`: the C code computes
`(x + n) % n` in `size_t`, so the addition itself first wraps modulo `2^64`. -/
def redCoord (n a : ℕ) : ℕ := ((a + n) % U) % n

/-- The function `getIndex`: reduces both coordinates and returns
`x * height + y`, all in `size_t` arithmetic. -/
def getIndex (l : Lattice) (x y : ℕ) : ℕ :=
  (redCoord l.width x * l.height + redCoord l.height y) % U

/-- The function `get`: reads the buffer at `getIndex`. -/
def get (l : Lattice) (x y : ℕ) : ℤ := l.data (getIndex l x y)

/-- The function `set`: writes `value` at `getIndex`. -/
def set (l : Lattice) (x y : ℕ) (v : ℤ) : Lattice :=
  ⟨l.width, l.height, fun i => if i = getIndex l x y then v else l.data i⟩

/-- The function `flip`: negates the cell's spin. -/
def flip (l : Lattice) (x y : ℕ) : Lattice := set l x y (- get l x y)

/-- The row-major iteration order `for x < width: for y < height` shared by
every loop of the program, as the list of visited `(x, y)` pairs. -/
def cellList (l : Lattice) : List (ℕ × ℕ) :=
  (List.range l.width).flatMap fun x => (List.range l.height).map fun y => (x, y)

/-- The function `fillGroundState`: sets every cell, in row-major order, to
the given spin. -/
def fillGroundState (l : Lattice) (s : ℤ) : Lattice :=
  (cellList l).foldl (fun a c => set a c.1 c.2 s) l

/-- Neighbour coordinate `x + 1` in `size_t` arithmetic. -/
def add1 (x : ℕ) : ℕ := (x + 1) % U

/-- Neighbour coordinate `x - 1` in `size_t` arithmetic (wraps at zero). -/
def sub1 (x : ℕ) : ℕ := (x + (U - 1)) % U

/-- One cell's contribution to `calcEnergy`: the four products with its
toroidal neighbours, exactly as the loop body accumulates them. -/
def bondSum (l : Lattice) (x y : ℕ) : ℤ :=
  get l x y * get l (add1 x) y + get l x y * get l (sub1 x) y +
    get l x y * get l x (add1 y) + get l x y * get l x (sub1 y)

/-- The function `calcEnergy`: total energy, accumulated over the cells in
row-major order. -/
def calcEnergy (l : Lattice) : ℤ :=
  ((cellList l).map fun c => bondSum l c.1 c.2).sum

/-- The function `calcWeight`: the Boltzmann-like weight
`exp(- beta * energy)`. -/
noncomputable def calcWeight (l : Lattice) (beta : ℝ) : ℝ :=
  Real.exp (- beta * (calcEnergy l : ℝ))

/-- One iteration of phase one of `tryFlipOneSpin`: flip the cell, record the
flipped configuration's weight in the buffer at the cell's flat index, and
flip the cell back. -/
noncomputable def flipWeightsStep (beta : ℝ) (acc : Lattice × (ℕ → ℝ)) (c : ℕ × ℕ) :
    Lattice × (ℕ → ℝ) :=
  let l1 := flip acc.1 c.1 c.2
  let w := calcWeight l1 beta
  (flip l1 c.1 c.2, fun i => if i = getIndex l1 c.1 c.2 then w else acc.2 i)

/-- Phase one of `tryFlipOneSpin`: run `flipWeightsStep` over every cell in
row-major order.  The lattice is threaded through the fold exactly as the C
code mutates and restores it; the buffer starts out all zero (`calloc`). -/
noncomputable def flipWeights (l : Lattice) (beta : ℝ) : Lattice × (ℕ → ℝ) :=
  (cellList l).foldl (flipWeightsStep beta) (l, fun _ => 0)

/-- Phase two of `tryFlipOneSpin`: the sum of the buffered weights. -/
noncomputable def weightSum (l : Lattice) (buf : ℕ → ℝ) : ℝ :=
  ((cellList l).map fun c => buf (getIndex l c.1 c.2)).sum

/-- Phase three of `tryFlipOneSpin`: divide every cell's buffer entry by the
sum, in row-major order. -/
noncomputable def normalizeBuf (l : Lattice) (buf : ℕ → ℝ) (s : ℝ) : ℕ → ℝ :=
  (cellList l).foldl (fun b c => fun i => if i = getIndex l c.1 c.2 then b i / s else b i) buf

/-- Phase four of `tryFlipOneSpin`: walk the cells accumulating the running
sum of buffered values; return the first cell where `sum > r`, or `none`
when the walk finishes without exceeding `r`. -/
noncomputable def selectGo (f : ℕ × ℕ → ℝ) (r : ℝ) : List (ℕ × ℕ) → ℝ → Option (ℕ × ℕ)
  | [], _ => none
  | c :: cs, s => if r < s + f c then some c else selectGo f r cs (s + f c)

/-- The function `tryFlipOneSpin`, with the random draw `r` passed in
explicitly: compute all flip weights, normalize them, and flip the first
cell whose cumulative normalized weight exceeds `r` (no flip when the
cumulative sum never exceeds `r`). -/
noncomputable def tryFlipOneSpin (l : Lattice) (beta r : ℝ) : Lattice :=
  let fw := flipWeights l beta
  let s := weightSum fw.1 fw.2
  let nb := normalizeBuf fw.1 fw.2 s
  match selectGo (fun c => nb (getIndex fw.1 c.1 c.2)) r (cellList fw.1) 0 with
  | some c => flip fw.1 c.1 c.2
  | none => fw.1

/-- The loop body of `evolveIntoThermalState`, with an explicit fuel bound:
`evolveAux beta rs patience fuel k e l c` runs the loop from iteration `k`
with previous energy `e`, current lattice `l` and consecutive-unchanged
counter `c`, drawing the `k`-th random value `rs k` each step.  Returns
`some (n, final)` when the loop breaks after its `n`-th sampler step, or
`none` if the fuel is exhausted first. -/
noncomputable def evolveAux (beta : ℝ) (rs : ℕ → ℝ) (patience : ℕ) :
    ℕ → ℕ → ℤ → Lattice → ℕ → Option (ℕ × Lattice)
  | 0, _, _, _, _ => none
  | fuel + 1, k, e, l, c =>
    let l1 := tryFlipOneSpin l beta (rs k)
    let e1 := calcEnergy l1
    let c1 := if e = e1 then c + 1 else 0
    if patience ≤ c1 then some (k + 1, l1)
    else evolveAux beta rs patience fuel (k + 1) e1 l1 c1

/-- The function `evolveIntoThermalState` (fuel-bounded observation of the
unbounded C loop): starts from the lattice's current energy with the counter
at zero. -/
noncomputable def evolveIntoThermalState (l : Lattice) (beta : ℝ) (patience : ℕ)
    (rs : ℕ → ℝ) (fuel : ℕ) : Option (ℕ × Lattice) :=
  evolveAux beta rs patience fuel 0 (calcEnergy l) l 0

/-- The function `printLattice`: the lines written to the output sink, one
list of characters per line, in the order the C code prints them (the outer
loop runs `x` from `0` to `width`, printing a newline after each inner loop
over `y < height`). -/
def printLattice (l : Lattice) : List (List Char) :=
  (List.range l.width).map fun x =>
    (List.range l.height).map fun y => if get l x y = 1 then '+' else '-'

/-- The function `uniformRandom`: `rand() / RAND_MAX`, modelled exactly over
`ℚ` for a generator output `n` on a platform whose `RAND_MAX` is `randMax`. -/
def uniformRandom (randMax n : ℕ) : ℚ := (n : ℚ) / (randMax : ℚ)

/-- Well-formed dimensions: both positive, and small enough that the index
arithmetic `x * height + y` and the coordinate reductions never wrap
(`calloc(width * height, ...)` succeeded, so the cell count fits a
`size_t`). -/
def wf (l : Lattice) : Prop :=
  0 < l.width ∧ 0 < l.height ∧ l.width + l.width ≤ U ∧ l.height + l.height ≤ U ∧
    l.width * l.height ≤ U

instance (l : Lattice) : Decidable (wf l) :=
  inferInstanceAs (Decidable (_ ∧ _ ∧ _ ∧ _ ∧ _))

/-- The spin invariant: every observable cell value is `+1` or `-1`. -/
def Inv (l : Lattice) : Prop := ∀ x y, get l x y = 1 ∨ get l x y = -1

/-- The global spin flip: every cell's spin negated simultaneously. -/
def negLattice (l : Lattice) : Lattice := ⟨l.width, l.height, fun i => - l.data i⟩

/-- Conversion of a mathematical integer coordinate to the `size_t` value the
C caller would pass (two's-complement, i.e. reduction modulo `2 ^ 64`). -/
def toSize (x : ℤ) : ℕ := (x % (U : ℤ)).toNat

/-- The lattice after `k` sampler steps, drawing the `i`-th random value
`rs i` at step `i`. -/
noncomputable def iterFlip (beta : ℝ) (rs : ℕ → ℝ) (l : Lattice) : ℕ → Lattice
  | 0 => l
  | k + 1 => tryFlipOneSpin (iterFlip beta rs l k) beta (rs k)

/-- The consecutive-unchanged counter after `k` sampler steps: incremented
when the step left the total energy unchanged, reset to zero otherwise. -/
noncomputable def cnt (beta : ℝ) (rs : ℕ → ℝ) (l : Lattice) : ℕ → ℕ
  | 0 => 0
  | k + 1 =>
    if calcEnergy (iterFlip beta rs l k) = calcEnergy (iterFlip beta rs l (k + 1)) then
      cnt beta rs l k + 1
    else 0

/-- The buffer of normalized flip weights that phase four of
`tryFlipOneSpin` walks. -/
noncomputable def normBuf (l : Lattice) (beta : ℝ) : ℕ → ℝ :=
  normalizeBuf l (flipWeights l beta).2 (weightSum l (flipWeights l beta).2)

/-- The cumulative normalized weight of the first `k` cells in row-major
order. -/
noncomputable def cumNorm (l : Lattice) (beta : ℝ) (k : ℕ) : ℝ :=
  (((cellList l).take k).map fun c => normBuf l beta (getIndex l c.1 c.2)).sum

/-! ## Basic lemmas about the lattice operations -/

theorem lattice_eq {l m : Lattice} (hw : l.width = m.width) (hh : l.height = m.height)
    (hd : ∀ i, l.data i = m.data i) : l = m := by
  cases l with
  | mk w h d =>
    cases m with
    | mk w' h' d' =>
      dsimp at hw hh hd
      subst hw
      subst hh
      have hde : d = d' := funext hd
      rw [hde]

theorem set_width (l : Lattice) (x y : ℕ) (v : ℤ) : (set l x y v).width = l.width := rfl

theorem set_height (l : Lattice) (x y : ℕ) (v : ℤ) : (set l x y v).height = l.height := rfl

theorem flip_width (l : Lattice) (x y : ℕ) : (flip l x y).width = l.width := rfl

theorem flip_height (l : Lattice) (x y : ℕ) : (flip l x y).height = l.height := rfl

theorem getIndex_set (l : Lattice) (a b x y : ℕ) (v : ℤ) :
    getIndex (set l a b v) x y = getIndex l x y := rfl

theorem getIndex_flip (l : Lattice) (a b x y : ℕ) :
    getIndex (flip l a b) x y = getIndex l x y := rfl

theorem set_data (l : Lattice) (a b : ℕ) (v : ℤ) (i : ℕ) :
    (set l a b v).data i = if i = getIndex l a b then v else l.data i := rfl

theorem get_set (l : Lattice) (a b x y : ℕ) (v : ℤ) :
    get (set l a b v) x y = if getIndex l x y = getIndex l a b then v else get l x y := rfl

theorem get_flip (l : Lattice) (a b x y : ℕ) :
    get (flip l a b) x y =
      if getIndex l x y = getIndex l a b then - get l a b else get l x y := rfl

theorem flip_flip (l : Lattice) (x y : ℕ) : flip (flip l x y) x y = l := by
  refine lattice_eq rfl rfl fun i => ?_
  show (if i = getIndex l x y then - get (flip l x y) x y else (flip l x y).data i) = l.data i
  by_cases h : i = getIndex l x y
  · rw [if_pos h, get_flip, if_pos rfl, neg_neg, h]
    rfl
  · rw [if_neg h]
    show (if i = getIndex l x y then - get l x y else l.data i) = l.data i
    rw [if_neg h]

/-! ## Phase one of the sampler restores the lattice -/

theorem flipWeightsStep_fst (beta : ℝ) (a : Lattice) (b : ℕ → ℝ) (c : ℕ × ℕ) :
    (flipWeightsStep beta (a, b) c).1 = a := by
  show flip (flip a c.1 c.2) c.1 c.2 = a
  exact flip_flip a c.1 c.2

theorem foldl_flipWeightsStep_fst (beta : ℝ) :
    ∀ (cs : List (ℕ × ℕ)) (a : Lattice) (b : ℕ → ℝ),
      (cs.foldl (flipWeightsStep beta) (a, b)).1 = a := by
  intro cs
  induction cs with
  | nil => intro a b; rfl
  | cons c cs ih =>
    intro a b
    have hstep : flipWeightsStep beta (a, b) c =
        (a, (flipWeightsStep beta (a, b) c).2) := by
      refine Prod.ext ?_ rfl
      exact flipWeightsStep_fst beta a b c
    rw [List.foldl_cons, hstep]
    exact ih a _

theorem flipWeights_fst (l : Lattice) (beta : ℝ) : (flipWeights l beta).1 = l :=
  foldl_flipWeightsStep_fst beta (cellList l) l _

/-! ## Characterization of the selection walk -/

theorem selectGo_spec (f : ℕ × ℕ → ℝ) (r : ℝ) :
    ∀ (cs : List (ℕ × ℕ)) (s : ℝ),
      (∃ k, k < cs.length ∧ selectGo f r cs s = some (cs.getD k (0, 0)) ∧
        r < s + ((cs.take (k + 1)).map f).sum ∧
        ∀ j, j < k → s + ((cs.take (j + 1)).map f).sum ≤ r) ∨
      (selectGo f r cs s = none ∧
        ∀ k, k < cs.length → s + ((cs.take (k + 1)).map f).sum ≤ r) := by
  intro cs
  induction cs with
  | nil =>
    intro s
    right
    exact ⟨rfl, fun k hk => absurd hk (Nat.not_lt_zero k)⟩
  | cons c cs ih =>
    intro s
    by_cases h : r < s + f c
    · left
      refine ⟨0, Nat.succ_pos _, ?_, ?_, fun j hj => absurd hj (Nat.not_lt_zero j)⟩
      · show (if r < s + f c then some c else selectGo f r cs (s + f c)) = some _
        rw [if_pos h]
        rfl
      · simpa using h
    · have hif : selectGo f r (c :: cs) s = selectGo f r cs (s + f c) := by
        show (if r < s + f c then some c else selectGo f r cs (s + f c)) = _
        rw [if_neg h]
      rcases ih (s + f c) with ⟨k, hk, hsel, hlt, hle⟩ | ⟨hsel, hle⟩
      · left
        refine ⟨k + 1, Nat.succ_lt_succ hk, ?_, ?_, ?_⟩
        · rw [hif, hsel, List.getD_cons_succ]
        · rw [List.take_succ_cons, List.map_cons, List.sum_cons, ← add_assoc]
          exact hlt
        · intro j hj
          cases j with
          | zero => simpa using not_lt.mp h
          | succ j' =>
            rw [List.take_succ_cons, List.map_cons, List.sum_cons, ← add_assoc]
            exact hle j' (Nat.lt_of_succ_lt_succ hj)
      · right
        refine ⟨by rw [hif, hsel], ?_⟩
        intro k hk
        cases k with
        | zero => simpa using not_lt.mp h
        | succ k' =>
          rw [List.take_succ_cons, List.map_cons, List.sum_cons, ← add_assoc]
          exact hle k' (Nat.lt_of_succ_lt_succ hk)

/-- Rewriting `tryFlipOneSpin` through the restored lattice of phase one:
the call either flips the cell phase four selects, or returns the lattice
unchanged. -/
theorem tryFlipOneSpin_eq (l : Lattice) (beta r : ℝ) :
    tryFlipOneSpin l beta r =
      match selectGo (fun c => normBuf l beta (getIndex l c.1 c.2)) r (cellList l) 0 with
      | some c => flip l c.1 c.2
      | none => l := by
  show (match selectGo _ r (cellList (flipWeights l beta).1) 0 with
        | some c => flip (flipWeights l beta).1 c.1 c.2
        | none => (flipWeights l beta).1) = _
  rw [flipWeights_fst]
  rfl

theorem tryFlipOneSpin_cases (l : Lattice) (beta r : ℝ) :
    tryFlipOneSpin l beta r = l ∨
      ∃ c, c ∈ cellList l ∧ tryFlipOneSpin l beta r = flip l c.1 c.2 := by
  rw [tryFlipOneSpin_eq]
  rcases selectGo_spec (fun c => normBuf l beta (getIndex l c.1 c.2)) r (cellList l) 0 with
    ⟨k, hk, hsel, _, _⟩ | ⟨hsel, _⟩
  · right
    refine ⟨(cellList l).getD k (0, 0), ?_, by rw [hsel]⟩
    rw [List.getD_eq_getElem _ _ hk]
    exact List.getElem_mem hk
  · left
    rw [hsel]

/-- C1: one call to the flip-weight sampler either flips exactly the first
cell (in row-major order) whose cumulative normalized weight exceeds the
random draw `r`, or — when the cumulative sum never exceeds `r` — returns
the lattice completely unchanged; no other cell is modified. -/
theorem tryFlipOneSpin_first_exceeding (l : Lattice) (beta r : ℝ) :
    (∃ k, k < (cellList l).length ∧ r < cumNorm l beta (k + 1) ∧
      (∀ j, j < k → cumNorm l beta (j + 1) ≤ r) ∧
      tryFlipOneSpin l beta r =
        flip l ((cellList l).getD k (0, 0)).1 ((cellList l).getD k (0, 0)).2) ∨
    ((∀ k, k < (cellList l).length → cumNorm l beta (k + 1) ≤ r) ∧
      tryFlipOneSpin l beta r = l) := by
  rw [tryFlipOneSpin_eq]
  rcases selectGo_spec (fun c => normBuf l beta (getIndex l c.1 c.2)) r (cellList l) 0 with
    ⟨k, hk, hsel, hlt, hle⟩ | ⟨hsel, hle⟩
  · left
    refine ⟨k, hk, by simpa [cumNorm] using hlt, fun j hj => by simpa [cumNorm] using hle j hj, ?_⟩
    rw [hsel]
  · right
    refine ⟨fun k hk => by simpa [cumNorm] using hle k hk, ?_⟩
    rw [hsel]

/-! ## Index arithmetic under well-formed dimensions -/

theorem redCoord_lt (n a : ℕ) (hn : 0 < n) : redCoord n a < n := Nat.mod_lt _ hn

theorem redCoord_of_lt {n : ℕ} (h2 : n + n ≤ U) {a : ℕ} (ha : a < n) : redCoord n a = a := by
  unfold redCoord
  have h1 : a + n < U := lt_of_lt_of_le (by omega) h2
  rw [Nat.mod_eq_of_lt h1, Nat.add_mod_right, Nat.mod_eq_of_lt ha]

theorem getIndex_eq {l : Lattice} (hwf : wf l) {x y : ℕ} (hx : x < l.width)
    (hy : y < l.height) : getIndex l x y = x * l.height + y := by
  obtain ⟨hw, hh, hw2, hh2, hwh⟩ := hwf
  unfold getIndex
  rw [redCoord_of_lt hw2 hx, redCoord_of_lt hh2 hy]
  apply Nat.mod_eq_of_lt
  have hb : x * l.height + y < l.width * l.height := by
    calc x * l.height + y < x * l.height + l.height := by omega
    _ = (x + 1) * l.height := by ring
    _ ≤ l.width * l.height := Nat.mul_le_mul_right _ (by omega)
  omega

theorem getIndex_lt {l : Lattice} (hwf : wf l) (x y : ℕ) :
    getIndex l x y < l.width * l.height := by
  obtain ⟨hw, hh, hw2, hh2, hwh⟩ := hwf
  unfold getIndex
  have hx : redCoord l.width x < l.width := redCoord_lt _ _ hw
  have hy : redCoord l.height y < l.height := redCoord_lt _ _ hh
  have hb : redCoord l.width x * l.height + redCoord l.height y < l.width * l.height := by
    calc redCoord l.width x * l.height + redCoord l.height y
        < redCoord l.width x * l.height + l.height := by omega
    _ = (redCoord l.width x + 1) * l.height := by ring
    _ ≤ l.width * l.height := Nat.mul_le_mul_right _ (by omega)
  rw [Nat.mod_eq_of_lt (lt_of_lt_of_le hb hwh)]
  exact hb

theorem getIndex_inj {l : Lattice} (hwf : wf l) {x y x' y' : ℕ} (hx : x < l.width)
    (hy : y < l.height) (hx' : x' < l.width) (hy' : y' < l.height)
    (h : getIndex l x y = getIndex l x' y') : x = x' ∧ y = y' := by
  rw [getIndex_eq hwf hx hy, getIndex_eq hwf hx' hy'] at h
  have hh0 : 0 < l.height := hwf.2.1
  have e1 : (x * l.height + y) / l.height = x := by
    rw [mul_comm, Nat.mul_add_div hh0, Nat.div_eq_of_lt hy, Nat.add_zero]
  have e2 : (x' * l.height + y') / l.height = x' := by
    rw [mul_comm, Nat.mul_add_div hh0, Nat.div_eq_of_lt hy', Nat.add_zero]
  have hxx : x = x' := by rw [← e1, ← e2, h]
  subst hxx
  exact ⟨rfl, Nat.add_left_cancel h⟩

theorem getIndex_congr {l m : Lattice} (hw : l.width = m.width) (hh : l.height = m.height)
    (x y : ℕ) : getIndex l x y = getIndex m x y := by
  unfold getIndex redCoord
  rw [hw, hh]

theorem mem_cellList {l : Lattice} {x y : ℕ} :
    (x, y) ∈ cellList l ↔ x < l.width ∧ y < l.height := by
  unfold cellList
  simp only [List.mem_flatMap, List.mem_map, List.mem_range, Prod.mk.injEq]
  constructor
  · rintro ⟨a, ha, b, hb, hax, hby⟩
    exact ⟨hax ▸ ha, hby ▸ hb⟩
  · rintro ⟨hx, hy⟩
    exact ⟨x, hx, y, hy, rfl, rfl⟩

theorem cellList_length (l : Lattice) : (cellList l).length = l.width * l.height := by
  unfold cellList
  rw [List.length_flatMap]
  simp only [Function.comp_def, List.length_map, List.length_range]
  rw [List.map_const', List.sum_replicate, List.length_range, smul_eq_mul]

/-! ## The effect of filling the lattice -/

theorem foldl_set_width (s : ℤ) (cs : List (ℕ × ℕ)) (a : Lattice) :
    ((cs.foldl (fun m c => set m c.1 c.2 s) a)).width = a.width := by
  induction cs generalizing a with
  | nil => rfl
  | cons c cs ih => rw [List.foldl_cons]; exact ih _

theorem foldl_set_height (s : ℤ) (cs : List (ℕ × ℕ)) (a : Lattice) :
    ((cs.foldl (fun m c => set m c.1 c.2 s) a)).height = a.height := by
  induction cs generalizing a with
  | nil => rfl
  | cons c cs ih => rw [List.foldl_cons]; exact ih _

theorem foldl_set_data_stay (s : ℤ) (cs : List (ℕ × ℕ)) (a : Lattice) (i : ℕ)
    (h : a.data i = s) : (cs.foldl (fun m c => set m c.1 c.2 s) a).data i = s := by
  induction cs generalizing a with
  | nil => exact h
  | cons c cs ih =>
    rw [List.foldl_cons]
    apply ih
    rw [set_data]
    by_cases hc : i = getIndex a c.1 c.2
    · rw [if_pos hc]
    · rw [if_neg hc]; exact h

theorem foldl_set_data_mem (s : ℤ) (cs : List (ℕ × ℕ)) (a : Lattice) (i : ℕ)
    (h : ∃ c ∈ cs, getIndex a c.1 c.2 = i) :
    (cs.foldl (fun m c => set m c.1 c.2 s) a).data i = s := by
  induction cs generalizing a with
  | nil => obtain ⟨c, hc, _⟩ := h; exact absurd hc (List.not_mem_nil c)
  | cons c cs ih =>
    rw [List.foldl_cons]
    obtain ⟨c', hc', hidx⟩ := h
    rcases List.mem_cons.mp hc' with hch | hct
    · subst hch
      apply foldl_set_data_stay
      rw [set_data, if_pos hidx.symm]
    · apply ih
      exact ⟨c', hct, by rw [getIndex_set]; exact hidx⟩

theorem fillGroundState_width (l : Lattice) (s : ℤ) :
    (fillGroundState l s).width = l.width := foldl_set_width s (cellList l) l

theorem fillGroundState_height (l : Lattice) (s : ℤ) :
    (fillGroundState l s).height = l.height := foldl_set_height s (cellList l) l

theorem fillGroundState_get {l : Lattice} (hwf : wf l) (s : ℤ) (x y : ℕ) :
    get (fillGroundState l s) x y = s := by
  have hW := fillGroundState_width l s
  have hH := fillGroundState_height l s
  unfold get
  rw [getIndex_congr hW hH]
  apply foldl_set_data_mem
  have hh0 : 0 < l.height := hwf.2.1
  have hidx : getIndex l x y < l.width * l.height := getIndex_lt hwf x y
  refine ⟨(getIndex l x y / l.height, getIndex l x y % l.height), ?_, ?_⟩
  · apply mem_cellList.mpr
    constructor
    · exact Nat.div_lt_of_lt_mul (by rw [mul_comm] at hidx; exact hidx)
    · exact Nat.mod_lt _ hh0
  · rw [getIndex_eq hwf (Nat.div_lt_of_lt_mul (by rw [mul_comm] at hidx; exact hidx))
      (Nat.mod_lt _ hh0)]
    rw [mul_comm]
    exact Nat.div_add_mod _ _

/-! ## Energy of uniform configurations and symmetry -/

theorem calcEnergy_fillGroundState {l : Lattice} (hwf : wf l) (s : ℤ) :
    calcEnergy (fillGroundState l s) = (l.width * l.height : ℕ) * (4 * (s * s)) := by
  have hW := fillGroundState_width l s
  have hH := fillGroundState_height l s
  have hcell : cellList (fillGroundState l s) = cellList l := by
    unfold cellList
    rw [hW, hH]
  unfold calcEnergy
  rw [hcell]
  have hterm : ∀ c ∈ cellList l,
      bondSum (fillGroundState l s) c.1 c.2 = 4 * (s * s) := by
    intro c _
    simp only [bondSum, fillGroundState_get hwf]
    ring
  rw [List.map_congr_left hterm, List.map_const', List.sum_replicate, cellList_length,
    nsmul_eq_mul]

/-- C4: the energy of an `n × n` lattice filled uniformly with `+1` or with
`-1` is exactly `4 * n * n` (doubled-counting convention).  The side
conditions say the dimensions fit the machine's `size_t` index arithmetic,
as they must for the C allocation to be meaningful. -/
theorem calcEnergy_uniform (n : ℕ) (d0 : ℕ → ℤ) (s : ℤ) (hn : 0 < n)
    (hU : n + n ≤ U) (hU2 : n * n ≤ U) (hs : s = 1 ∨ s = -1) :
    calcEnergy (fillGroundState ⟨n, n, d0⟩ s) = 4 * (n : ℤ) * n := by
  have hwf : wf ⟨n, n, d0⟩ := ⟨hn, hn, hU, hU, hU2⟩
  rw [calcEnergy_fillGroundState hwf s]
  have hss : s * s = 1 := by rcases hs with h | h <;> rw [h] <;> ring
  rw [hss]
  push_cast
  ring

theorem calcEnergy_uniform_witness :
    (0 < 2 ∧ 2 + 2 ≤ U ∧ 2 * 2 ≤ U) ∧
      calcEnergy (fillGroundState ⟨2, 2, fun _ => 0⟩ (-1)) = 4 * (2 : ℤ) * 2 :=
  ⟨⟨by decide, by decide, by decide⟩,
    calcEnergy_uniform 2 (fun _ => 0) (-1) (by decide) (by decide) (by decide) (Or.inr rfl)⟩

/-- C7: the energy functional is invariant under the global spin flip. -/
theorem calcEnergy_negLattice (l : Lattice) (h : Inv l) :
    calcEnergy (negLattice l) = calcEnergy l := by
  unfold calcEnergy
  have hcell : cellList (negLattice l) = cellList l := rfl
  rw [hcell]
  apply congrArg List.sum
  apply List.map_congr_left
  intro c _
  show bondSum (negLattice l) c.1 c.2 = bondSum l c.1 c.2
  have hget : ∀ x y, get (negLattice l) x y = - get l x y := fun _ _ => rfl
  simp only [bondSum, hget]
  ring

theorem calcEnergy_negLattice_witness :
    Inv ⟨1, 1, fun _ => 1⟩ ∧
      calcEnergy (negLattice ⟨1, 1, fun _ => 1⟩) = calcEnergy ⟨1, 1, fun _ => 1⟩ :=
  ⟨fun _ _ => Or.inl rfl, calcEnergy_negLattice ⟨1, 1, fun _ => 1⟩ (fun _ _ => Or.inl rfl)⟩

/-- C8: flipping one cell twice restores the lattice exactly, and with it
the energy. -/
theorem flip_flip_restores (l : Lattice) (x y : ℕ) :
    flip (flip l x y) x y = l ∧ calcEnergy (flip (flip l x y) x y) = calcEnergy l :=
  ⟨flip_flip l x y, by rw [flip_flip]⟩

/-! ## The spin-value invariant -/

theorem Inv_flip {l : Lattice} (h : Inv l) (a b : ℕ) : Inv (flip l a b) := by
  intro x y
  rw [get_flip]
  by_cases hc : getIndex l x y = getIndex l a b
  · rw [if_pos hc]
    rcases h a b with h1 | h1
    · right
      rw [h1]
    · left
      rw [h1]
      norm_num
  · rw [if_neg hc]
    exact h x y

theorem Inv_tryFlipOneSpin {l : Lattice} (h : Inv l) (beta r : ℝ) :
    Inv (tryFlipOneSpin l beta r) := by
  rcases tryFlipOneSpin_cases l beta r with heq | ⟨c, _, heq⟩
  · rw [heq]
    exact h
  · rw [heq]
    exact Inv_flip h c.1 c.2

theorem Inv_evolveAux (beta : ℝ) (rs : ℕ → ℝ) (p : ℕ) :
    ∀ (fuel k : ℕ) (e : ℤ) (l : Lattice) (c n : ℕ) (L : Lattice),
      Inv l → evolveAux beta rs p fuel k e l c = some (n, L) → Inv L := by
  intro fuel
  induction fuel with
  | zero =>
    intro k e l c n L _ hev
    simp [evolveAux] at hev
  | succ fuel ih =>
    intro k e l c n L hI hev
    simp only [evolveAux] at hev
    split at hev <;> split at hev
    all_goals
      try exact ih (k + 1) _ _ _ n L (Inv_tryFlipOneSpin hI beta (rs k)) hev
    all_goals
      have h := Option.some_inj.mp hev
      have hL : tryFlipOneSpin l beta (rs k) = L := congrArg Prod.snd h
      exact hL ▸ Inv_tryFlipOneSpin hI beta (rs k)

/-- C9: once the lattice is initialized by `fillGroundState` with spin `+1`
or `-1`, the `±1` invariant holds and is preserved by `flip`, by a sampler
step, and by the full thermalization loop; no other value is ever observable
through `get`. -/
theorem spin_invariant (l0 : Lattice) (hwf : wf l0) (s : ℤ) (hs : s = 1 ∨ s = -1) :
    Inv (fillGroundState l0 s) ∧
      (∀ l, Inv l → ∀ x y, Inv (flip l x y)) ∧
      (∀ l, Inv l → ∀ beta r, Inv (tryFlipOneSpin l beta r)) ∧
      (∀ l, Inv l → ∀ beta patience rs fuel n L,
        evolveIntoThermalState l beta patience rs fuel = some (n, L) → Inv L) := by
  refine ⟨?_, fun l h x y => Inv_flip h x y, fun l h beta r => Inv_tryFlipOneSpin h beta r, ?_⟩
  · intro x y
    rw [fillGroundState_get hwf]
    exact hs
  · intro l h beta p rs fuel n L hev
    exact Inv_evolveAux beta rs p fuel 0 (calcEnergy l) l 0 n L h hev

theorem spin_invariant_witness :
    wf ⟨5, 5, fun _ => 0⟩ ∧
      (get (fillGroundState ⟨5, 5, fun _ => 0⟩ 1) 0 0 = 1 ∨
        get (fillGroundState ⟨5, 5, fun _ => 0⟩ 1) 0 0 = -1) :=
  ⟨by decide, (spin_invariant ⟨5, 5, fun _ => 0⟩ (by decide) 1 (Or.inl rfl)).1 0 0⟩

/-! ## The frame property of `set` -/

theorem getIndex_red {l : Lattice} (hwf : wf l) (x y : ℕ) :
    getIndex l x y = getIndex l (redCoord l.width x) (redCoord l.height y) := by
  obtain ⟨hw, hh, hw2, hh2, -⟩ := hwf
  unfold getIndex
  rw [redCoord_of_lt hw2 (redCoord_lt _ _ hw), redCoord_of_lt hh2 (redCoord_lt _ _ hh)]

/-- C10: `set` modifies only the cell whose reduced coordinates are
`(x mod width, y mod height)`: any cell with different reduced coordinates
reads the same value before and after, and the index map is injective on
in-range coordinate pairs. -/
theorem set_frame (l : Lattice) (hwf : wf l) (x y x2 y2 : ℕ) (v : ℤ)
    (hne : redCoord l.width x2 ≠ redCoord l.width x ∨
      redCoord l.height y2 ≠ redCoord l.height y) :
    get (set l x y v) x2 y2 = get l x2 y2 ∧
      (∀ a b a2 b2, a < l.width → b < l.height → a2 < l.width → b2 < l.height →
        getIndex l a b = getIndex l a2 b2 → a = a2 ∧ b = b2) := by
  have hw := hwf.1
  have hh := hwf.2.1
  constructor
  · rw [get_set]
    apply if_neg
    intro hc
    rw [getIndex_red hwf x2 y2, getIndex_red hwf x y] at hc
    have := getIndex_inj hwf (redCoord_lt _ x2 hw) (redCoord_lt _ y2 hh)
      (redCoord_lt _ x hw) (redCoord_lt _ y hh) hc
    rcases hne with hne | hne
    · exact hne this.1
    · exact hne this.2
  · intro a b a2 b2 ha hb ha2 hb2 hidx
    exact getIndex_inj hwf ha hb ha2 hb2 hidx

theorem set_frame_witness :
    (wf ⟨2, 2, fun _ => 1⟩ ∧ redCoord 2 1 ≠ redCoord 2 0) ∧
      get (set ⟨2, 2, fun _ => 1⟩ 0 0 (-1)) 1 0 = get ⟨2, 2, fun _ => 1⟩ 1 0 :=
  ⟨⟨by decide, by decide⟩,
    (set_frame ⟨2, 2, fun _ => 1⟩ (by decide) 0 0 1 0 (-1) (Or.inl (by decide))).1⟩

/-! ## The thermalization loop -/

theorem cnt_consec (beta : ℝ) (rs : ℕ → ℝ) (l : Lattice) :
    ∀ n i, i < cnt beta rs l n →
      calcEnergy (iterFlip beta rs l (n - i)) = calcEnergy (iterFlip beta rs l (n - i - 1)) := by
  intro n
  induction n with
  | zero =>
    intro i hi
    simp [cnt] at hi
  | succ k ih =>
    intro i hi
    rw [cnt] at hi
    by_cases he : calcEnergy (iterFlip beta rs l k) = calcEnergy (iterFlip beta rs l (k + 1))
    · rw [if_pos he] at hi
      cases i with
      | zero => simpa using he.symm
      | succ j =>
        have hj : j < cnt beta rs l k := Nat.lt_of_succ_lt_succ hi
        simpa [Nat.succ_sub_succ] using ih j hj
    · rw [if_neg he] at hi
      exact absurd hi (Nat.not_lt_zero i)

theorem evolveAux_spec (beta : ℝ) (rs : ℕ → ℝ) (p : ℕ) (l0 : Lattice) :
    ∀ (fuel k n : ℕ) (L : Lattice),
      evolveAux beta rs p fuel k (calcEnergy (iterFlip beta rs l0 k))
          (iterFlip beta rs l0 k) (cnt beta rs l0 k) = some (n, L) →
      k < n ∧ L = iterFlip beta rs l0 n ∧ p ≤ cnt beta rs l0 n ∧
        ∀ m, k < m → m < n → cnt beta rs l0 m < p := by
  intro fuel
  induction fuel with
  | zero =>
    intro k n L hev
    simp [evolveAux] at hev
  | succ fuel ih =>
    intro k n L hev
    simp only [evolveAux] at hev
    have hstep : iterFlip beta rs l0 (k + 1) =
        tryFlipOneSpin (iterFlip beta rs l0 k) beta (rs k) := by
      rw [iterFlip]
    have hcnt : cnt beta rs l0 (k + 1) =
        if calcEnergy (iterFlip beta rs l0 k) = calcEnergy (iterFlip beta rs l0 (k + 1)) then
          cnt beta rs l0 k + 1
        else 0 := by
      rw [cnt]
    rw [← hstep, ← hcnt] at hev
    split at hev
    · rename_i hp
      have h := Option.some_inj.mp hev
      have hn : k + 1 = n := congrArg Prod.fst h
      have hL : iterFlip beta rs l0 (k + 1) = L := congrArg Prod.snd h
      subst hn
      exact ⟨Nat.lt_succ_self k, hL.symm, hp, fun m hm1 hm2 => absurd hm2 (by omega)⟩
    · rename_i hp
      obtain ⟨h1, h2, h3, h4⟩ := ih (k + 1) n L hev
      refine ⟨Nat.lt_trans (Nat.lt_succ_self k) h1, h2, h3, ?_⟩
      intro m hm1 hm2
      by_cases hm : m = k + 1
      · subst hm
        exact Nat.lt_of_not_le hp
      · exact h4 m (by omega) hm2

/-- C2: when the thermalization loop returns after `n` sampler steps, the
final lattice is the `n`-step iterate, the consecutive-unchanged counter
(incremented exactly when a step leaves the total energy unchanged, reset to
zero otherwise) has just reached the patience threshold — it was below the
threshold after every earlier step — and the total energy was unchanged
across the last `patience` consecutive steps. -/
theorem evolveIntoThermalState_patience (l : Lattice) (beta : ℝ) (p : ℕ) (rs : ℕ → ℝ)
    (fuel n : ℕ) (L : Lattice)
    (hev : evolveIntoThermalState l beta p rs fuel = some (n, L)) :
    1 ≤ n ∧ L = iterFlip beta rs l n ∧ p ≤ cnt beta rs l n ∧
      (∀ m, 1 ≤ m → m < n → cnt beta rs l m < p) ∧
      ∀ i, i < p → calcEnergy (iterFlip beta rs l (n - i)) =
        calcEnergy (iterFlip beta rs l (n - i - 1)) := by
  have h0 : evolveAux beta rs p fuel 0 (calcEnergy (iterFlip beta rs l 0))
      (iterFlip beta rs l 0) (cnt beta rs l 0) = some (n, L) := by
    simpa [evolveIntoThermalState, iterFlip, cnt] using hev
  obtain ⟨h1, h2, h3, h4⟩ := evolveAux_spec beta rs p l fuel 0 n L h0
  exact ⟨h1, h2, h3, fun m hm1 hm2 => h4 m hm1 hm2,
    fun i hi => cnt_consec beta rs l n i (lt_of_lt_of_le hi h3)⟩

/-! ## A concrete sampler run on the 1-by-1 lattice at `beta = 0` -/

theorem cellList_one : cellList ⟨1, 1, fun _ => 1⟩ = [(0, 0)] := rfl

theorem getIndex_one (x y : ℕ) (d : ℕ → ℤ) : getIndex ⟨1, 1, d⟩ x y = 0 := by
  unfold getIndex redCoord
  simp [Nat.mod_one]

theorem normBuf_one : normBuf ⟨1, 1, fun _ => 1⟩ 0 0 = 1 := by
  unfold normBuf flipWeights weightSum normalizeBuf
  rw [cellList_one]
  simp only [List.foldl_cons, List.foldl_nil, List.map_cons, List.map_nil, List.sum_cons,
    List.sum_nil, flipWeightsStep]
  simp [calcWeight, getIndex_flip, getIndex_one, Real.exp_zero]

theorem tryFlipOneSpin_one :
    tryFlipOneSpin ⟨1, 1, fun _ => 1⟩ 0 0 = flip ⟨1, 1, fun _ => 1⟩ 0 0 := by
  rw [tryFlipOneSpin_eq, cellList_one]
  show (match (if (0:ℝ) < 0 + normBuf ⟨1, 1, fun _ => 1⟩ 0 (getIndex ⟨1, 1, fun _ => 1⟩ 0 0)
      then some ((0:ℕ), (0:ℕ)) else selectGo _ 0 [] (0 + _)) with
    | some c => flip ⟨1, 1, fun _ => 1⟩ c.1 c.2
    | none => ⟨1, 1, fun _ => 1⟩) = flip ⟨1, 1, fun _ => 1⟩ 0 0
  rw [getIndex_one, normBuf_one, if_pos (by norm_num)]

theorem calcEnergy_flip_one :
    calcEnergy (flip ⟨1, 1, fun _ => 1⟩ 0 0) = calcEnergy ⟨1, 1, fun _ => 1⟩ := by
  decide

theorem evolve_one :
    evolveIntoThermalState ⟨1, 1, fun _ => 1⟩ 0 1 (fun _ => 0) 1 =
      some (1, iterFlip 0 (fun _ => 0) ⟨1, 1, fun _ => 1⟩ 1) := by
  have hiter : iterFlip 0 (fun _ => 0) ⟨1, 1, fun _ => 1⟩ 1 =
      tryFlipOneSpin ⟨1, 1, fun _ => 1⟩ 0 0 := by
    rw [iterFlip, iterFlip]
  unfold evolveIntoThermalState
  simp only [evolveAux]
  rw [hiter, tryFlipOneSpin_one, calcEnergy_flip_one, if_pos rfl, if_pos (by norm_num)]

theorem evolveIntoThermalState_patience_witness :
    evolveIntoThermalState ⟨1, 1, fun _ => 1⟩ 0 1 (fun _ => 0) 1 =
        some (1, iterFlip 0 (fun _ => 0) ⟨1, 1, fun _ => 1⟩ 1) ∧
      1 ≤ cnt 0 (fun _ => 0) ⟨1, 1, fun _ => 1⟩ 1 :=
  ⟨evolve_one,
    (evolveIntoThermalState_patience ⟨1, 1, fun _ => 1⟩ 0 1 (fun _ => 0) 1 1
      (iterFlip 0 (fun _ => 0) ⟨1, 1, fun _ => 1⟩ 1) evolve_one).2.2.1⟩

/-! ## Coordinate reduction for signed coordinates -/

theorem coordinate_reduction_cex :
    get ⟨5, 5, fun i => if i = 0 then 1 else -1⟩ (toSize (-6)) (toSize 0) ≠
      get ⟨5, 5, fun i => if i = 0 then 1 else -1⟩ (toSize (-6 + 5)) (toSize 0) := by
  decide

theorem cast_U : ((U : ℕ) : ℤ) = 2 ^ 64 := by norm_num [U]

theorem redCoord_toSize {n : ℕ} (hn : 0 < n) (h2 : n + n ≤ U) {x : ℤ}
    (h1 : -(n : ℤ) ≤ x) (hx : x + n < (U : ℤ)) :
    (redCoord n (toSize x) : ℤ) = x % (n : ℤ) := by
  have hUz := cast_U
  have hUn : (2 : ℕ) ^ 64 = U := by norm_num [U]
  by_cases hx0 : 0 ≤ x
  · have hxlt : x < (U : ℤ) := by omega
    have hts : toSize x = x.toNat := by
      unfold toSize
      rw [Int.emod_eq_of_lt hx0 hxlt]
    rw [hts]
    unfold redCoord
    have ha : x.toNat + n < U := by omega
    rw [Nat.mod_eq_of_lt ha, Nat.add_mod_right]
    push_cast
    rw [Int.toNat_of_nonneg hx0]
  · push_neg at hx0
    have hnU : (n : ℤ) ≤ (U : ℤ) := by exact_mod_cast le_trans (Nat.le_add_left n n) h2
    have hts : toSize x = (x + U).toNat := by
      unfold toSize
      have hmod : x % (U : ℤ) = x + U := by
        have h4 : (x + (U : ℤ)) % (U : ℤ) = x % (U : ℤ) := by
          simpa using Int.add_mul_emod_self_left (a := x) (b := (U : ℤ)) (c := 1)
        rw [← h4, Int.emod_eq_of_lt (by omega) (by omega)]
      rw [hmod]
    rw [hts]
    unfold redCoord
    have key : ((x + U).toNat + n) % U = (x + (n : ℤ)).toNat := by
      have h3 : (x + (U : ℤ)).toNat + n = (x + (n : ℤ)).toNat + U := by omega
      rw [h3, Nat.add_mod_right, Nat.mod_eq_of_lt (by omega)]
    rw [key, Nat.mod_eq_of_lt (by omega)]
    have h4 : (x + (n : ℤ)) % (n : ℤ) = x % (n : ℤ) := by
      simpa using Int.add_mul_emod_self_left (a := x) (b := (n : ℤ)) (c := 1)
    rw [← h4, Int.emod_eq_of_lt (by omega) (by omega)]
    omega

theorem redCoord_toSize_period {n : ℕ} (hn : 0 < n) (h2 : n + n ≤ U) {x : ℤ}
    (h1 : -(n : ℤ) ≤ x) (hx : x + 2 * n < (U : ℤ)) :
    redCoord n (toSize x) = redCoord n (toSize (x + n)) := by
  have e1 := redCoord_toSize hn h2 h1 (by omega)
  have e2 := redCoord_toSize hn h2 (x := x + (n : ℤ)) (by omega) (by omega)
  have e3 : (x + (n : ℤ)) % (n : ℤ) = x % (n : ℤ) := by
    simpa using Int.add_mul_emod_self_left (a := x) (b := (n : ℤ)) (c := 1)
  have : (redCoord n (toSize x) : ℤ) = (redCoord n (toSize (x + n)) : ℤ) := by
    rw [e1, e2, e3]
  exact_mod_cast this

/-- C3 (amended): for a well-formed lattice and any integer coordinates with
`-width ≤ x`, `x + 2·width < 2^64`, `-height ≤ y` and `y + 2·height < 2^64`
(one period below zero — the only negative offsets the program ever forms),
`get`/`set`'s coordinate reduction is the true mathematical modulo, lands in
`[0, width)` × `[0, height)`, and `get` is periodic with periods `width` and
`height`.  For more negative coordinates the `size_t` wrap-around makes the
reduction differ from the mathematical modulo (see the counterexample). -/
theorem coordinate_reduction (l : Lattice) (hwf : wf l) (x y : ℤ)
    (hx1 : -(l.width : ℤ) ≤ x) (hx2 : x + 2 * l.width < (U : ℤ))
    (hy1 : -(l.height : ℤ) ≤ y) (hy2 : y + 2 * l.height < (U : ℤ)) :
    (redCoord l.width (toSize x) : ℤ) = x % (l.width : ℤ) ∧
      redCoord l.width (toSize x) < l.width ∧
      (redCoord l.height (toSize y) : ℤ) = y % (l.height : ℤ) ∧
      redCoord l.height (toSize y) < l.height ∧
      get l (toSize x) (toSize y) = get l (toSize (x + l.width)) (toSize y) ∧
      get l (toSize x) (toSize y) = get l (toSize x) (toSize (y + l.height)) := by
  obtain ⟨hw, hh, hw2, hh2, -⟩ := hwf
  refine ⟨redCoord_toSize hw hw2 hx1 (by omega), redCoord_lt _ _ hw,
    redCoord_toSize hh hh2 hy1 (by omega), redCoord_lt _ _ hh, ?_, ?_⟩
  · unfold get getIndex
    rw [redCoord_toSize_period hw hw2 hx1 hx2]
  · unfold get getIndex
    rw [redCoord_toSize_period hh hh2 hy1 hy2]

theorem coordinate_reduction_witness :
    (wf ⟨5, 5, fun _ => 0⟩ ∧ -(5 : ℤ) ≤ -3 ∧ (-3 : ℤ) + 2 * 5 < (U : ℤ) ∧
        -(5 : ℤ) ≤ -1 ∧ (-1 : ℤ) + 2 * 5 < (U : ℤ)) ∧
      (redCoord 5 (toSize (-3)) : ℤ) = (-3 : ℤ) % 5 ∧
        get ⟨5, 5, fun _ => 0⟩ (toSize (-3)) (toSize (-1)) =
          get ⟨5, 5, fun _ => 0⟩ (toSize (-3 + 5)) (toSize (-1)) :=
  ⟨⟨by decide, by decide, by norm_num [U], by decide, by norm_num [U]⟩,
    (coordinate_reduction ⟨5, 5, fun _ => 0⟩ (by decide) (-3) (-1) (by decide)
        (by norm_num [U]) (by decide) (by norm_num [U])).1,
    (coordinate_reduction ⟨5, 5, fun _ => 0⟩ (by decide) (-3) (-1) (by decide)
        (by norm_num [U]) (by decide) (by norm_num [U])).2.2.2.2.1⟩

/-! ## The textual rendering -/

theorem printLattice_cex :
    ¬ ((printLattice ⟨2, 3, fun _ => 1⟩).length = (3 : ℕ) ∧
        ∀ row ∈ printLattice ⟨2, 3, fun _ => 1⟩, row.length = (2 : ℕ)) := by
  intro h
  have h1 := h.1
  simp [printLattice] at h1

/-- C5 (amended): `printLattice` writes `width` lines of `height` characters
each (the C loops are transposed relative to the claim: the outer loop over
`x < width` emits one line per `x`), each character `'+'` exactly when the
spin is `+1` and `'-'` otherwise. -/
theorem printLattice_shape (l : Lattice) :
    (printLattice l).length = l.width ∧
      (∀ row ∈ printLattice l, row.length = l.height) ∧
      ∀ x, x < l.width → ∀ y, y < l.height →
        ((printLattice l).getD x []).getD y ' ' =
          (if get l x y = 1 then '+' else '-') := by
  refine ⟨by simp [printLattice], ?_, ?_⟩
  · intro row hrow
    obtain ⟨x, hx, hrw⟩ := List.mem_map.mp hrow
    rw [← hrw]
    simp
  · intro x hx y hy
    unfold printLattice
    simp only [List.getD_eq_getElem?_getD, List.getElem?_map, List.getElem?_range hx,
      List.getElem?_range hy, Option.map_some', Option.getD_some]

/-! ## The range of the uniform random source -/

theorem uniformRandom_cex :
    ¬ (0 ≤ uniformRandom 2147483647 2147483647 ∧
        uniformRandom 2147483647 2147483647 < 1) := by
  intro h
  have h2 := h.2
  norm_num [uniformRandom] at h2

/-- C6 (amended): for any positive `RAND_MAX` and any generator output
`n ≤ RAND_MAX`, `uniformRandom` returns a value in the closed interval
`[0, 1]`; it is strictly below `1` exactly for the outputs `n < RAND_MAX`,
and it equals `1` at `n = RAND_MAX` (see the counterexample), so the true
range is `[0, 1]`, not `[0, 1)`. -/
theorem uniformRandom_range (randMax n : ℕ) (h0 : 0 < randMax) (hn : n ≤ randMax) :
    0 ≤ uniformRandom randMax n ∧ uniformRandom randMax n ≤ 1 ∧
      (n < randMax → uniformRandom randMax n < 1) := by
  unfold uniformRandom
  have hpos : (0 : ℚ) < (randMax : ℚ) := by exact_mod_cast h0
  refine ⟨div_nonneg (by positivity) (le_of_lt hpos), ?_, ?_⟩
  · rw [div_le_one hpos]
    exact_mod_cast hn
  · intro hlt
    rw [div_lt_one hpos]
    exact_mod_cast hlt

theorem uniformRandom_range_witness :
    (0 < 7 ∧ 3 ≤ 7) ∧
      0 ≤ uniformRandom 7 3 ∧ uniformRandom 7 3 ≤ 1 ∧ uniformRandom 7 3 < 1 :=
  ⟨⟨by decide, by decide⟩, (uniformRandom_range 7 3 (by decide) (by decide)).1,
    (uniformRandom_range 7 3 (by decide) (by decide)).2.1,
    (uniformRandom_range 7 3 (by decide) (by decide)).2.2 (by decide)⟩

end Ising
